import Mathlib

/-!
Verification of the freq-pick selection engine.

This file shallowly embeds the core of the `freq_pick` Python package:
`src/freq_pick/core.py` (snap engine, selection state, result assembly) and
`src/freq_pick/mpl_ui.py` (display conversion and the interactive controller).
Python floats are modelled as exact rationals (for the pure numeric core) or
reals (for the logarithmic display conversion); numpy arrays as lists; Python
sets as finsets; `ValueError`/`PickerCancelled` as explicit result types.
`np.searchsorted(a, v, "left")` on a sorted array equals the number of
elements strictly below `v`, and `"right"` the number of elements `≤ v`;
the embedding uses those counts directly.
-/

namespace FreqPick

/-- Error taxonomy of the spec (§7): Python raises `ValueError` with a
message; each message maps to one constructor here. -/
inductive PickError where
  | invalidParameter
  | invalidSpectrum
  | emptyWindow
  | overlayLengthMismatch (series : String) (expected actual : ℕ)
  deriving DecidableEq

deriving instance DecidableEq for Except

/-- Embeds `np.searchsorted(f, x, side="left")` for a sorted list `f`:
the number of elements strictly less than `x`. -/
def countLt (f : List ℚ) (x : ℚ) : ℕ :=
  f.countP (fun v => v < x)

/-- Embeds `np.searchsorted(f, x, side="right")` for a sorted list `f`:
the number of elements less than or equal to `x`. -/
def countLe (f : List ℚ) (x : ℚ) : ℕ :=
  f.countP (fun v => v ≤ x)

/-- Embeds `np.argmax`: index of the maximum value, first occurrence on
ties. `d` is a default never read on non-empty input. -/
def argmaxIdx [LinearOrder α] (d : α) : List α → ℕ
  | [] => 0
  | [_] => 0
  | x :: y :: t =>
    if x < (y :: t).getD (argmaxIdx d (y :: t)) d then
      argmaxIdx d (y :: t) + 1
    else 0

/-- Embeds `np.argmin`: index of the minimum value, first occurrence on
ties. -/
def argminIdx [LinearOrder α] (d : α) : List α → ℕ
  | [] => 0
  | [_] => 0
  | x :: y :: t =>
    if (y :: t).getD (argminIdx d (y :: t)) d < x then
      argminIdx d (y :: t) + 1
    else 0

/-- Embeds `core.snap_index`: raises `ValueError` ("window_hz must be
positive") for `window_hz ≤ 0`; otherwise locates the closed window
`[target-window, target+window]` by boundary search and returns the
argmax of magnitude inside it, falling back to the frequency nearest
`target_hz` when the window is empty. -/
def snap_index (f_hz mag : List ℚ) (target_hz window_hz : ℚ) :
    Except PickError ℕ :=
  if window_hz ≤ 0 then .error .invalidParameter
  else
    let low := target_hz - window_hz
    let high := target_hz + window_hz
    let idx_lo := countLt f_hz low
    let idx_hi := countLe f_hz high
    if idx_lo = idx_hi then
      .ok (argminIdx 0 (f_hz.map (fun v => |v - target_hz|)))
    else
      .ok (argmaxIdx 0 ((mag.drop idx_lo).take (idx_hi - idx_lo)) + idx_lo)

/-- Embeds `core.crop_to_window`: `ValueError` ("xlim must be (min, max)")
when `fmin ≥ fmax`, `ValueError` ("xlim does not include any spectrum
samples") when the searchsorted bounds coincide, else the two slices
`[idx_lo:idx_hi]` plus the offset `idx_lo`. -/
def crop_to_window (f_hz mag : List ℚ) (fmin fmax : ℚ) :
    Except PickError (List ℚ × List ℚ × ℕ) :=
  if fmax ≤ fmin then .error .invalidParameter
  else
    let idx_lo := countLt f_hz fmin
    let idx_hi := countLe f_hz fmax
    if idx_lo = idx_hi then .error .emptyWindow
    else
      .ok ((f_hz.drop idx_lo).take (idx_hi - idx_lo),
           (mag.drop idx_lo).take (idx_hi - idx_lo),
           idx_lo)

/-- Embeds `core.toggle_index`: remove the index if present, insert it
otherwise (the Python version mutates the set in place). -/
def toggle_index (selected_idx : Finset ℕ) (index : ℕ) : Finset ℕ :=
  if index ∈ selected_idx then selected_idx.erase index
  else insert index selected_idx

/-- Embeds `core.Selection`: the picker output record. Settings and
metadata are opaque string maps here. -/
structure Selection where
  selected_hz : List ℚ
  selected_idx : List ℕ
  settings : List (String × String)
  meta : List (String × String)
  deriving DecidableEq

/-- Embeds `core._build_selection`: sorts the selected indices by their
frequency (Python `sorted` with key `f_hz[idx]`; the set's iteration
order is represented by the input list), maps them to frequencies, and
copies the metadata (empty when absent). -/
def build_selection (f_hz : List ℚ) (selected_idx : List ℕ)
    (settings : List (String × String))
    (meta : Option (List (String × String))) : Selection :=
  let sorted_idx := selected_idx.mergeSort
    (fun a b => f_hz.getD a 0 ≤ f_hz.getD b 0)
  { selected_hz := sorted_idx.map (fun idx => f_hz.getD idx 0)
    selected_idx := sorted_idx
    settings := settings
    meta := meta.getD [] }

/-- Embeds `mpl_ui.PickerResult` (the selected set listed in iteration
order, plus the cancelled flag; the figure is rendering-only). -/
structure PickerResult where
  selected_idx : List ℕ
  cancelled : Bool

/-- Terminal outcome of one picking session as seen by the caller:
`pick_freqs_matplotlib` raises `PickerCancelled` on `result.cancelled`
and otherwise returns the assembled `Selection`. -/
inductive SessionOutcome where
  | cancelled
  | committed (sel : Selection)
  deriving DecidableEq

/-- Embeds the tail of `core.pick_freqs_matplotlib`: after the UI returns,
a cancelled result raises `PickerCancelled` before `_build_selection` is
ever reached; otherwise the selection is assembled (an empty selection
only warns and still succeeds). -/
def finish_pick (f_hz : List ℚ) (result : PickerResult)
    (settings : List (String × String))
    (meta : Option (List (String × String))) : SessionOutcome :=
  if result.cancelled then .cancelled
  else .committed (build_selection f_hz result.selected_idx settings meta)

/-- Embeds `core.PICKER_KEYMAP` (the module-level default dict, in source
order). -/
def PICKER_KEYMAP : List (String × String) :=
  [("commit", "q"), ("cancel", "escape"), ("clear", "c"), ("help", "h"),
   ("delete_nearest", "x"), ("toggle_scale", "l")]

/-- Embeds a Python dict lookup `km[k]` as an option (a missing key raises
`KeyError`, i.e. `none`). -/
def dict_get (km : List (String × String)) (k : String) : Option String :=
  (km.find? (fun p => p.1 == k)).map Prod.snd

/-- Modelled from the spec: the required key set of the input contract
(§6) — `{commit, cancel, clear, help, delete_nearest, toggle_scale,
toggle_overlays}`. -/
def REQUIRED_KEYS : List String :=
  ["commit", "cancel", "clear", "help", "delete_nearest", "toggle_scale",
   "toggle_overlays"]

/-- The dict keys `mpl_ui.run_picker` looks up while building its help
text (source order of the `help_lines` f-strings); every one of them must
be present or the lookup raises `KeyError`. -/
def helpTextKeys : List String :=
  ["commit", "cancel", "clear", "delete_nearest", "toggle_scale",
   "toggle_overlays", "help"]

/-- Whether `run_picker` can build its help text from `km` without a
`KeyError`. -/
def helpTextOk (km : List (String × String)) : Bool :=
  helpTextKeys.all (fun k => (dict_get km k).isSome)

/-- Modelled from the spec: `core.OverlayContext` is imported by
`mpl_ui`, `cli` and the tests but its definition is absent from the
provided `core.py`; per spec §3 it is six optional series, each of which
must match the spectrum's length. -/
structure OverlayContext where
  mean : Option (List ℚ) := none
  median : Option (List ℚ) := none
  p10 : Option (List ℚ) := none
  p25 : Option (List ℚ) := none
  p75 : Option (List ℚ) := none
  p90 : Option (List ℚ) := none

/-- Modelled from the spec: `OverlayContext.has_any` as used by
`run_picker` (`overlays_enabled = overlay_context.has_any()`): whether at
least one series is present. -/
def OverlayContext.has_any (c : OverlayContext) : Bool :=
  c.mean.isSome || c.median.isSome || c.p10.isSome || c.p25.isSome ||
    c.p75.isSome || c.p90.isSome

/-- The six named series of an overlay context, in the spec's order. -/
def OverlayContext.series (c : OverlayContext) :
    List (String × Option (List ℚ)) :=
  [("mean", c.mean), ("median", c.median), ("p10", c.p10), ("p25", c.p25),
   ("p75", c.p75), ("p90", c.p90)]

/-- Modelled from the spec: `core.validate_context` is absent from the
provided `core.py` (only its tests and callers exist). Per spec §4.3: a
no-op success when the context is absent; for each present series whose
length differs from the spectrum's, fails with `OverlayLengthMismatch`
naming the series, the expected length and the actual length (the
effectless-context advisory is non-fatal and not modelled as an error). -/
def validate_context (f_hz : List ℚ) (context : Option OverlayContext) :
    Except PickError Unit :=
  match context with
  | none => .ok ()
  | some c =>
    match c.series.find? (fun p =>
        match p.2 with
        | some v => decide (v.length ≠ f_hz.length)
        | none => false) with
    | some (name, some v) =>
      .error (.overlayLengthMismatch name f_hz.length v.length)
    | _ => .ok ()

/-- Embeds `mpl_ui.linear_to_db` pointwise (numpy works elementwise): a
non-positive reference maximum is replaced by `1.0`, the value is floored
at `max_linear * 1e-12`, and the result is `20·log10(value / max)`. -/
noncomputable def linear_to_db (linear_mag max_linear : ℝ) : ℝ :=
  let m := if max_linear ≤ 0 then 1 else max_linear
  20 * Real.logb 10 (max linear_mag (m * (10 : ℝ) ^ (-12 : ℤ)) / m)

/-- Embeds `mpl_ui.db_to_linear` pointwise: `max · 10^(dB/20)` with the
same guard on the reference maximum. -/
noncomputable def db_to_linear (db_mag max_linear : ℝ) : ℝ :=
  let m := if max_linear ≤ 0 then 1 else max_linear
  m * (10 : ℝ) ^ (db_mag / 20)

/-- Embeds `float(np.max(mag)) if mag.size else 1.0` from `run_picker`. -/
def list_max : List ℝ → ℝ
  | [] => 1
  | x :: xs => xs.foldl max x

/-- The session's reference maximum: `np.max` of the viewed magnitudes,
replaced by `1.0` when the list is empty or the maximum is not positive
(`run_picker` lines 87–89). -/
noncomputable def session_max_linear (mag : List ℝ) : ℝ :=
  if list_max mag ≤ 0 then 1 else list_max mag

/-- Embeds `mpl_ui._event_has_modifier`: the modifier name must be one of
the `+`-separated parts of the event's key string. -/
def event_has_modifier (event_key : Option String) (modifier : String) :
    Bool :=
  match event_key with
  | none => false
  | some k => modifier ∈ k.splitOn "+"

/-- Embeds `mpl_ui._indices_in_view`: the view-local translations
`idx - view_offset` of the selected indices that land inside
`[0, view_size)`. The Python set's (unspecified) iteration order is
represented by the canonical ascending order. -/
def indices_in_view (selected_idx : Finset ℕ) (view_offset view_size : ℕ) :
    List ℕ :=
  ((selected_idx.sort (· ≤ ·)).filter
    (fun idx => view_offset ≤ idx ∧ idx - view_offset < view_size)).map
    (fun idx => idx - view_offset)

/-- A key-binding map with all entries `run_picker` dereferences; the
default dict is checked against this shape in the C3 analysis. -/
structure Keymap where
  commit : String
  cancel : String
  clear : String
  help : String
  delete_nearest : String
  toggle_scale : String
  toggle_overlays : String

/-- Per-session constants of `run_picker` (its parameters plus the
derived reference maximum and overlay-enabled flag). -/
structure SessionParams where
  fHz : List ℝ
  originalMag : List ℝ
  displayDomain : String
  modifier : String
  km : Keymap
  originalOffset : ℕ
  overlaysEnabled : Bool

/-- The mutable closure state of `run_picker`: the `state` dict, the
selected set, the current display domain/magnitudes, and the
overlay-visibility flag. -/
structure UIState where
  done : Bool
  cancelled : Bool
  lastMouseX : Option ℝ
  selectedIdx : Finset ℕ
  currentDomain : String
  currentMag : List ℝ
  overlaysVisible : Bool

/-- Embeds `run_picker.convert_mag`: presentation-only conversion between
the stored domain and the requested one. -/
noncomputable def convert_mag (display_domain : String) (max_linear : ℝ)
    (values : List ℝ) (domain : String) : List ℝ :=
  if domain = "linear" then
    if display_domain = "linear" then values
    else values.map (fun v => db_to_linear v 1)
  else
    if display_domain = "linear" then
      values.map (fun v => linear_to_db v max_linear)
    else values

/-- Embeds `run_picker.display_mag_for`: the original magnitudes
converted into the requested display domain. -/
noncomputable def display_mag_for (P : SessionParams) (domain : String) :
    List ℝ :=
  convert_mag P.displayDomain (session_max_linear P.originalMag)
    P.originalMag domain

/-- One discrete input gesture delivered by the rendering collaborator:
a rectangle drag (both event key states and both corners), a key press,
or a pointer motion. -/
inductive Gesture where
  | rectSelect (click_key release_key : Option String)
      (cx cy rx ry : Option ℝ)
  | keyPress (key : String)
  | motion (in_axes : Bool) (x : Option ℝ)

/-- Embeds `run_picker.on_select`: modifier gate, `None`-coordinate
gates, rectangle hit test against the frequencies and the *displayed*
magnitudes, then toggle of the max-magnitude hit translated by the view
offset (`toggle_selected`). -/
noncomputable def on_select (P : SessionParams) (s : UIState)
    (click_key release_key : Option String) (cx cy rx ry : Option ℝ) :
    UIState :=
  if ¬(event_has_modifier click_key P.modifier
      ∨ event_has_modifier release_key P.modifier) then s
  else
    match cx, cy, rx, ry with
    | some cxv, some cyv, some rxv, some ryv =>
      let x0 := min cxv rxv
      let x1 := max cxv rxv
      let y0 := min cyv ryv
      let y1 := max cyv ryv
      let mask_idx := (List.range P.fHz.length).filter (fun i =>
        x0 ≤ P.fHz.getD i 0 ∧ P.fHz.getD i 0 ≤ x1 ∧
        y0 ≤ s.currentMag.getD i 0 ∧ s.currentMag.getD i 0 ≤ y1)
      if mask_idx = [] then s
      else
        let local_mag := mask_idx.map (fun i => s.currentMag.getD i 0)
        let view_idx := mask_idx.getD (argmaxIdx 0 local_mag) 0
        { s with selectedIdx :=
            toggle_index s.selectedIdx (view_idx + P.originalOffset) }
    | _, _, _, _ => s

/-- Embeds `run_picker.on_motion`: record the pointer's frequency
coordinate while it is inside the axes. -/
def on_motion (s : UIState) (in_axes : Bool) (x : Option ℝ) : UIState :=
  if in_axes then { s with lastMouseX := x } else s

/-- Embeds `run_picker.on_key_press`: the dispatch chain in source order
(commit, cancel, clear, delete-nearest, help, toggle-scale,
toggle-overlays). -/
noncomputable def on_key_press (P : SessionParams) (key : String)
    (s : UIState) : UIState :=
  if key = P.km.commit then { s with done := true }
  else if key = P.km.cancel then { s with cancelled := true }
  else if key = P.km.clear then { s with selectedIdx := ∅ }
  else if key = P.km.delete_nearest then
    if s.selectedIdx = ∅ then s
    else
      match s.lastMouseX with
      | none => s
      | some target =>
        let view_indices :=
          indices_in_view s.selectedIdx P.originalOffset P.fHz.length
        if view_indices = [] then s
        else
          let dists :=
            view_indices.map (fun idx => |P.fHz.getD idx 0 - target|)
          let nearest_view := view_indices.getD (argminIdx 0 dists) 0
          { s with selectedIdx :=
              toggle_index s.selectedIdx (nearest_view + P.originalOffset) }
  else if key = P.km.help then s
  else if key = P.km.toggle_scale then
    let d := if s.currentDomain = "dB" then "linear" else "dB"
    { s with currentDomain := d, currentMag := display_mag_for P d }
  else if key = P.km.toggle_overlays then
    if P.overlaysEnabled then { s with overlaysVisible := !s.overlaysVisible }
    else s
  else s

/-- One controller transition: terminal states absorb every gesture
(spec §4.5: no event is processed once terminal; the implementation
closes the window), otherwise the matching handler runs. -/
noncomputable def step (P : SessionParams) (s : UIState) (g : Gesture) :
    UIState :=
  if s.done ∨ s.cancelled then s
  else
    match g with
    | .rectSelect ck rk cx cy rx ry => on_select P s ck rk cx cy rx ry
    | .keyPress k => on_key_press P k s
    | .motion ax x => on_motion s ax x

/-- The initial closure state of `run_picker`: nothing selected, active,
no pointer seen, stored display domain, overlays visible iff enabled. -/
noncomputable def init_state (P : SessionParams) : UIState :=
  { done := false
    cancelled := false
    lastMouseX := none
    selectedIdx := ∅
    currentDomain := P.displayDomain
    currentMag := display_mag_for P P.displayDomain
    overlaysVisible := P.overlaysEnabled }

/-- A whole interactive session: the gestures delivered serially by the
rendering collaborator, folded over the controller. -/
noncomputable def run_gestures (P : SessionParams) (gs : List Gesture) :
    UIState :=
  gs.foldl (step P) (init_state P)

/-! ### Theorems -/

/-- On a strictly increasing list, the elements below `x` form the prefix
of length `countLt f x`. -/
theorem sorted_countLt_iff {f : List ℚ} (x : ℚ)
    (hsort : List.Sorted (· < ·) f) {i : ℕ} (hi : i < f.length) :
    f.getD i 0 < x ↔ i < countLt f x := by
  induction f generalizing i with
  | nil => simp at hi
  | cons a t ih =>
    rw [List.sorted_cons] at hsort
    by_cases hax : a < x
    · rw [countLt, List.countP_cons_of_pos _ _ (by simp [hax])]
      cases i with
      | zero => exact iff_of_true (by simpa using hax) (Nat.succ_pos _)
      | succ k =>
        rw [List.getD_cons_succ, Nat.succ_lt_succ_iff]
        exact ih hsort.2 (by simpa using hi)
    · have h0 : countLt (a :: t) x = 0 := by
        rw [countLt, List.countP_eq_zero]
        intro b hb
        rcases List.mem_cons.mp hb with rfl | hbt
        · simpa using hax
        · have hab : a < b := hsort.1 b hbt
          simp only [decide_eq_true_eq]
          exact fun hbx => hax (hab.trans hbx)
      rw [h0]
      simp only [Nat.not_lt_zero, iff_false]
      cases i with
      | zero => simpa using hax
      | succ k =>
        rw [List.getD_cons_succ]
        have hk : k < t.length := by simpa using hi
        have hb : t.getD k 0 ∈ t := by
          rw [List.getD_eq_getElem _ _ hk]
          exact List.getElem_mem hk
        exact fun hbx => hax ((hsort.1 _ hb).trans hbx)

/-- On a strictly increasing list, the elements at most `x` form the
prefix of length `countLe f x`. -/
theorem sorted_countLe_iff {f : List ℚ} (x : ℚ)
    (hsort : List.Sorted (· < ·) f) {i : ℕ} (hi : i < f.length) :
    f.getD i 0 ≤ x ↔ i < countLe f x := by
  induction f generalizing i with
  | nil => simp at hi
  | cons a t ih =>
    rw [List.sorted_cons] at hsort
    by_cases hax : a ≤ x
    · rw [countLe, List.countP_cons_of_pos _ _ (by simp [hax])]
      cases i with
      | zero => exact iff_of_true (by simpa using hax) (Nat.succ_pos _)
      | succ k =>
        rw [List.getD_cons_succ, Nat.succ_lt_succ_iff]
        exact ih hsort.2 (by simpa using hi)
    · have h0 : countLe (a :: t) x = 0 := by
        rw [countLe, List.countP_eq_zero]
        intro b hb
        rcases List.mem_cons.mp hb with rfl | hbt
        · simpa using hax
        · have hab : a < b := hsort.1 b hbt
          simp only [decide_eq_true_eq]
          exact fun hbx => hax (le_of_lt (lt_of_lt_of_le hab hbx))
      rw [h0]
      simp only [Nat.not_lt_zero, iff_false]
      cases i with
      | zero => simpa using hax
      | succ k =>
        rw [List.getD_cons_succ]
        have hk : k < t.length := by simpa using hi
        have hb : t.getD k 0 ∈ t := by
          rw [List.getD_eq_getElem _ _ hk]
          exact List.getElem_mem hk
        exact fun hbx => hax (le_of_lt (lt_of_lt_of_le (hsort.1 _ hb) hbx))

/-- Membership of the searchsorted window `[low, high]` on a strictly
increasing list is exactly the index range
`[countLt f low, countLe f high)`. -/
theorem window_mem_iff {f : List ℚ} (hsort : List.Sorted (· < ·) f)
    (low high : ℚ) {i : ℕ} (hi : i < f.length) :
    (low ≤ f.getD i 0 ∧ f.getD i 0 ≤ high) ↔
      (countLt f low ≤ i ∧ i < countLe f high) := by
  have hA := sorted_countLt_iff low hsort hi
  have hB := sorted_countLe_iff high hsort hi
  constructor
  · rintro ⟨h1, h2⟩
    refine ⟨?_, hB.mp h2⟩
    by_contra h
    push_neg at h
    exact absurd (hA.mpr h) (not_lt.mpr h1)
  · rintro ⟨h1, h2⟩
    refine ⟨?_, hB.mpr h2⟩
    by_contra h
    push_neg at h
    exact absurd (hA.mp h) (not_lt.mpr h1)

/-- `argmaxIdx` of a non-empty list is in bounds. -/
theorem argmaxIdx_lt_length [LinearOrder α] (d : α) (l : List α)
    (hl : l ≠ []) : argmaxIdx d l < l.length := by
  induction l with
  | nil => simp at hl
  | cons x rest ih =>
    cases rest with
    | nil => simp [argmaxIdx]
    | cons y t =>
      simp only [argmaxIdx]
      split
      · simpa using Nat.succ_lt_succ (ih (by simp))
      · simp

/-- `argmaxIdx` points at a maximum value. -/
theorem argmaxIdx_le [LinearOrder α] (d : α) (l : List α) (k : ℕ)
    (hk : k < l.length) : l.getD k d ≤ l.getD (argmaxIdx d l) d := by
  induction l generalizing k with
  | nil => simp at hk
  | cons x rest ih =>
    cases rest with
    | nil =>
      cases k with
      | zero => simp [argmaxIdx]
      | succ m => simp at hk
    | cons y t =>
      simp only [argmaxIdx]
      by_cases hx : x < (y :: t).getD (argmaxIdx d (y :: t)) d
      · rw [if_pos hx]
        cases k with
        | zero =>
          rw [List.getD_cons_zero, List.getD_cons_succ]
          exact le_of_lt hx
        | succ m =>
          rw [List.getD_cons_succ, List.getD_cons_succ]
          exact ih m (by simpa using hk)
      · rw [if_neg hx]
        push_neg at hx
        cases k with
        | zero => simp
        | succ m =>
          rw [List.getD_cons_succ, List.getD_cons_zero]
          exact le_trans (ih m (by simpa using hk)) hx

/-- `argmaxIdx` points at the first occurrence of the maximum: every
earlier entry is strictly smaller. -/
theorem argmaxIdx_first [LinearOrder α] (d : α) (l : List α) (k : ℕ)
    (hk : k < argmaxIdx d l) :
    l.getD k d < l.getD (argmaxIdx d l) d := by
  induction l generalizing k with
  | nil => simp [argmaxIdx] at hk
  | cons x rest ih =>
    cases rest with
    | nil => simp [argmaxIdx] at hk
    | cons y t =>
      simp only [argmaxIdx] at hk ⊢
      by_cases hx : x < (y :: t).getD (argmaxIdx d (y :: t)) d
      · rw [if_pos hx]
        rw [if_pos hx] at hk
        cases k with
        | zero => simpa using hx
        | succ m =>
          rw [List.getD_cons_succ, List.getD_cons_succ]
          exact ih m (Nat.lt_of_succ_lt_succ hk)
      · rw [if_neg hx] at hk
        simp at hk

/-- `argminIdx` of a non-empty list is in bounds. -/
theorem argminIdx_lt_length [LinearOrder α] (d : α) (l : List α)
    (hl : l ≠ []) : argminIdx d l < l.length := by
  induction l with
  | nil => simp at hl
  | cons x rest ih =>
    cases rest with
    | nil => simp [argminIdx]
    | cons y t =>
      simp only [argminIdx]
      split
      · simpa using Nat.succ_lt_succ (ih (by simp))
      · simp

/-- `argminIdx` points at a minimum value. -/
theorem argminIdx_le [LinearOrder α] (d : α) (l : List α) (k : ℕ)
    (hk : k < l.length) : l.getD (argminIdx d l) d ≤ l.getD k d := by
  induction l generalizing k with
  | nil => simp at hk
  | cons x rest ih =>
    cases rest with
    | nil =>
      cases k with
      | zero => simp [argminIdx]
      | succ m => simp at hk
    | cons y t =>
      simp only [argminIdx]
      by_cases hx : (y :: t).getD (argminIdx d (y :: t)) d < x
      · rw [if_pos hx]
        cases k with
        | zero =>
          rw [List.getD_cons_zero, List.getD_cons_succ]
          exact le_of_lt hx
        | succ m =>
          rw [List.getD_cons_succ, List.getD_cons_succ]
          exact ih m (by simpa using hk)
      · rw [if_neg hx]
        push_neg at hx
        cases k with
        | zero => simp
        | succ m =>
          rw [List.getD_cons_succ, List.getD_cons_zero]
          exact le_trans hx (ih m (by simpa using hk))

/-- `argminIdx` points at the first occurrence of the minimum. -/
theorem argminIdx_first [LinearOrder α] (d : α) (l : List α) (k : ℕ)
    (hk : k < argminIdx d l) :
    l.getD (argminIdx d l) d < l.getD k d := by
  induction l generalizing k with
  | nil => simp [argminIdx] at hk
  | cons x rest ih =>
    cases rest with
    | nil => simp [argminIdx] at hk
    | cons y t =>
      simp only [argminIdx] at hk ⊢
      by_cases hx : (y :: t).getD (argminIdx d (y :: t)) d < x
      · rw [if_pos hx]
        rw [if_pos hx] at hk
        cases k with
        | zero => simpa using hx
        | succ m =>
          rw [List.getD_cons_succ, List.getD_cons_succ]
          exact ih m (Nat.lt_of_succ_lt_succ hk)
      · rw [if_neg hx] at hk
        simp at hk

/-- Length of the numpy slice `m[lo:hi]` when `hi ≤ len(m)`. -/
theorem slice_length {α : Type*} (m : List α) (lo hi : ℕ)
    (hhi : hi ≤ m.length) :
    ((m.drop lo).take (hi - lo)).length = hi - lo := by
  simp only [List.length_take, List.length_drop]
  omega

/-- Entries of the numpy slice `m[lo:hi]`. -/
theorem slice_getD {α : Type*} (d : α) (m : List α) (lo hi k : ℕ)
    (hhi : hi ≤ m.length) (hk : k < hi - lo) :
    ((m.drop lo).take (hi - lo)).getD k d = m.getD (lo + k) d := by
  have h1 : k < ((m.drop lo).take (hi - lo)).length := by
    rw [slice_length m lo hi hhi]
    exact hk
  rw [List.getD_eq_getElem _ _ h1, List.getD_eq_getElem _ _ (by omega)]
  rw [List.getElem_take, List.getElem_drop]

/-- C1: for a non-empty, strictly increasing frequency list, an aligned
magnitude list and a positive window, `snap_index` succeeds with an
in-bounds index; whenever any sample lies in the closed window
`[target-window, target+window]` the result lies in the window and
carries the maximum magnitude there, ties broken by lowest index; when
no sample lies in the window the result is a nearest frequency to the
target (lowest index on ties). The spec's two concrete examples
(`target 2.2` and `7.2`, `window 3.0`) give indices `3` and `7`. -/
theorem C1_snap_index (f m : List ℚ) (t w : ℚ) (hne : f ≠ [])
    (hsort : List.Sorted (· < ·) f) (hlen : m.length = f.length)
    (hw : 0 < w) :
    (∃ i, snap_index f m t w = .ok i ∧ i < f.length ∧
      (∀ j, j < f.length → t - w ≤ f.getD j 0 → f.getD j 0 ≤ t + w →
        t - w ≤ f.getD i 0 ∧ f.getD i 0 ≤ t + w ∧
        m.getD j 0 ≤ m.getD i 0 ∧ (m.getD i 0 ≤ m.getD j 0 → i ≤ j)) ∧
      ((∀ j, j < f.length → ¬(t - w ≤ f.getD j 0 ∧ f.getD j 0 ≤ t + w)) →
        ∀ j, j < f.length → |f.getD i 0 - t| ≤ |f.getD j 0 - t| ∧
          (|f.getD j 0 - t| ≤ |f.getD i 0 - t| → i ≤ j))) ∧
    snap_index [0, 1, 2, 3, 4, 5, 6, 7, 8, 9] [0, 1, 2, 5, 1, 0, 1, 6, 2, 1]
      (11 / 5) 3 = .ok 3 ∧
    snap_index [0, 1, 2, 3, 4, 5, 6, 7, 8, 9] [0, 1, 2, 5, 1, 0, 1, 6, 2, 1]
      (36 / 5) 3 = .ok 7 := by
  have hw' : ¬ (w ≤ 0) := not_le.mpr hw
  refine ⟨?_, ?_, ?_⟩
  · by_cases hE : countLt f (t - w) = countLe f (t + w)
    · -- empty window: the nearest-frequency fallback
      have hmapne : f.map (fun v => |v - t|) ≠ [] := by
        simpa using hne
      have hilen : argminIdx 0 (f.map (fun v => |v - t|)) < f.length := by
        simpa using argminIdx_lt_length 0 _ hmapne
      have hd : ∀ k, k < f.length →
          (f.map (fun v => |v - t|)).getD k 0 = |f.getD k 0 - t| := by
        intro k hk
        rw [List.getD_eq_getElem _ _ (by simpa using hk),
          List.getD_eq_getElem _ _ hk, List.getElem_map]
      refine ⟨argminIdx 0 (f.map (fun v => |v - t|)), ?_, hilen, ?_, ?_⟩
      · simp only [snap_index, if_neg hw', if_pos hE]
      · intro j hj hj1 hj2
        exfalso
        have hmem := (window_mem_iff hsort (t - w) (t + w) hj).mp ⟨hj1, hj2⟩
        rw [hE] at hmem
        omega
      · intro _ j hj
        constructor
        · have := argminIdx_le 0 (f.map (fun v => |v - t|)) j
            (by simpa using hj)
          rwa [hd _ hilen, hd j hj] at this
        · intro hle
          by_contra hij
          push_neg at hij
          have := argminIdx_first 0 (f.map (fun v => |v - t|)) j hij
          rw [hd _ hilen, hd j hj] at this
          exact absurd hle (not_le.mpr this)
    · -- non-empty window: the slice argmax
      have hlh : t - w ≤ t + w := by linarith
      have hmono : countLt f (t - w) ≤ countLe f (t + w) := by
        apply List.countP_mono_left
        intro v _ hv
        simp only [decide_eq_true_eq] at hv ⊢
        exact le_of_lt (lt_of_lt_of_le hv hlh)
      have hlt : countLt f (t - w) < countLe f (t + w) :=
        lt_of_le_of_ne hmono hE
      have hhile : countLe f (t + w) ≤ f.length := List.countP_le_length _
      have hhim : countLe f (t + w) ≤ m.length := by omega
      have hslen : ((m.drop (countLt f (t - w))).take
          (countLe f (t + w) - countLt f (t - w))).length =
          countLe f (t + w) - countLt f (t - w) :=
        slice_length m _ _ hhim
      have hslne : (m.drop (countLt f (t - w))).take
          (countLe f (t + w) - countLt f (t - w)) ≠ [] := by
        intro h
        rw [h] at hslen
        simp at hslen
        omega
      have harglt : argmaxIdx 0 ((m.drop (countLt f (t - w))).take
          (countLe f (t + w) - countLt f (t - w))) <
          countLe f (t + w) - countLt f (t - w) := by
        have h := argmaxIdx_lt_length 0 _ hslne
        rwa [hslen] at h
      have hgetsl : ∀ k, k < countLe f (t + w) - countLt f (t - w) →
          ((m.drop (countLt f (t - w))).take
            (countLe f (t + w) - countLt f (t - w))).getD k 0 =
          m.getD (countLt f (t - w) + k) 0 :=
        fun k hk => slice_getD 0 m _ _ k hhim hk
      have hiwf : t - w ≤ f.getD (argmaxIdx 0 ((m.drop (countLt f (t - w))).take
            (countLe f (t + w) - countLt f (t - w))) + countLt f (t - w)) 0 ∧
          f.getD (argmaxIdx 0 ((m.drop (countLt f (t - w))).take
            (countLe f (t + w) - countLt f (t - w))) + countLt f (t - w)) 0 ≤
            t + w :=
        (window_mem_iff hsort (t - w) (t + w) (by omega)).mpr ⟨by omega, by omega⟩
      refine ⟨argmaxIdx 0 ((m.drop (countLt f (t - w))).take
          (countLe f (t + w) - countLt f (t - w))) + countLt f (t - w),
          ?_, by omega, ?_, ?_⟩
      · simp only [snap_index, if_neg hw', if_neg hE]
      · intro j hj hj1 hj2
        have hjw := (window_mem_iff hsort (t - w) (t + w) hj).mp ⟨hj1, hj2⟩
        refine ⟨hiwf.1, hiwf.2, ?_, ?_⟩
        · have h1 := argmaxIdx_le 0 ((m.drop (countLt f (t - w))).take
            (countLe f (t + w) - countLt f (t - w))) (j - countLt f (t - w))
            (by omega)
          rw [hgetsl _ (by omega), hgetsl _ harglt] at h1
          have he1 : countLt f (t - w) + (j - countLt f (t - w)) = j := by
            omega
          have he2 : countLt f (t - w) + argmaxIdx 0
              ((m.drop (countLt f (t - w))).take
                (countLe f (t + w) - countLt f (t - w))) =
              argmaxIdx 0 ((m.drop (countLt f (t - w))).take
                (countLe f (t + w) - countLt f (t - w))) +
              countLt f (t - w) := by
            omega
          rwa [he1, he2] at h1
        · intro hle
          by_contra hij
          push_neg at hij
          have h2 := argmaxIdx_first 0 ((m.drop (countLt f (t - w))).take
            (countLe f (t + w) - countLt f (t - w))) (j - countLt f (t - w))
            (by omega)
          rw [hgetsl _ (by omega), hgetsl _ harglt] at h2
          have he1 : countLt f (t - w) + (j - countLt f (t - w)) = j := by
            omega
          have he2 : countLt f (t - w) + argmaxIdx 0
              ((m.drop (countLt f (t - w))).take
                (countLe f (t + w) - countLt f (t - w))) =
              argmaxIdx 0 ((m.drop (countLt f (t - w))).take
                (countLe f (t + w) - countLt f (t - w))) +
              countLt f (t - w) := by
            omega
          rw [he1, he2] at h2
          exact absurd hle (not_le.mpr h2)
      · intro hnone _ _
        exact absurd ⟨hiwf.1, hiwf.2⟩ (hnone _ (by omega))
  · have h1 : countLt [0, 1, 2, 3, 4, 5, 6, 7, 8, 9] (11 / 5 - 3) = 0 := by
      norm_num [countLt, List.countP_cons, List.countP_nil]
    have h2 : countLe [0, 1, 2, 3, 4, 5, 6, 7, 8, 9] (11 / 5 + 3) = 6 := by
      norm_num [countLe, List.countP_cons, List.countP_nil]
    have h3 : ¬ ((3 : ℚ) ≤ 0) := by norm_num
    simp only [snap_index, h1, h2, if_neg h3]
    decide
  · have h1 : countLt [0, 1, 2, 3, 4, 5, 6, 7, 8, 9] (36 / 5 - 3) = 5 := by
      norm_num [countLt, List.countP_cons, List.countP_nil]
    have h2 : countLe [0, 1, 2, 3, 4, 5, 6, 7, 8, 9] (36 / 5 + 3) = 10 := by
      norm_num [countLe, List.countP_cons, List.countP_nil]
    have h3 : ¬ ((3 : ℚ) ≤ 0) := by norm_num
    simp only [snap_index, h1, h2, if_neg h3]
    decide

/-- C1 witness: the spec's two concrete snaps, obtained from the general
theorem at the concrete inputs. -/
theorem C1_snap_index_witness :
    snap_index [0, 1, 2, 3, 4, 5, 6, 7, 8, 9] [0, 1, 2, 5, 1, 0, 1, 6, 2, 1]
      (11 / 5) 3 = .ok 3 ∧
    snap_index [0, 1, 2, 3, 4, 5, 6, 7, 8, 9] [0, 1, 2, 5, 1, 0, 1, 6, 2, 1]
      (36 / 5) 3 = .ok 7 :=
  ⟨(C1_snap_index [0, 1, 2, 3, 4, 5, 6, 7, 8, 9]
      [0, 1, 2, 5, 1, 0, 1, 6, 2, 1] (11 / 5) 3 (by decide) (by decide)
      (by decide) (by norm_num)).2.1,
   (C1_snap_index [0, 1, 2, 3, 4, 5, 6, 7, 8, 9]
      [0, 1, 2, 5, 1, 0, 1, 6, 2, 1] (36 / 5) 3 (by decide) (by decide)
      (by decide) (by norm_num)).2.2⟩

/-- C2 counterexample: `crop_to_window` uses `side="right"` for `fmax`,
so a sample whose frequency equals `fmax` IS retained: cropping
`f = [0,1,2]` to `(1, 2)` keeps the frequency `2 = fmax`, refuting the
claim's half-open interval `[fmin, fmax)`. -/
theorem C2_cex_fmax_retained :
    crop_to_window [0, 1, 2] [5, 6, 7] 1 2 = .ok ([1, 2], [6, 7], 1) ∧
    (2 : ℚ) ∈ [(1 : ℚ), 2] ∧ ¬ ((2 : ℚ) < 2) := by
  refine ⟨by decide, by decide, by decide⟩

/-- C2 (amended): `crop_to_window` fails with `InvalidParameter` exactly
when `fmin ≥ fmax`; for valid bounds it fails with `EmptyWindow` exactly
when no sample frequency lies in the closed interval `[fmin, fmax]`;
otherwise it returns the contiguous run of samples whose frequencies lie
in `[fmin, fmax]` (a sample at `fmax` is retained) with `offset` the
absolute index of the first retained sample. -/
theorem C2_crop_to_window (f m : List ℚ) (fmin fmax : ℚ)
    (hsort : List.Sorted (· < ·) f) (hlen : m.length = f.length) :
    (fmax ≤ fmin ↔
      crop_to_window f m fmin fmax = .error .invalidParameter) ∧
    (fmin < fmax →
      (crop_to_window f m fmin fmax = .error .emptyWindow ↔
        ∀ i, i < f.length → ¬ (fmin ≤ f.getD i 0 ∧ f.getD i 0 ≤ fmax))) ∧
    (∀ fv mv off, crop_to_window f m fmin fmax = .ok (fv, mv, off) →
      fv.length = mv.length ∧ 0 < fv.length ∧ off + fv.length ≤ f.length ∧
      (∀ k, k < fv.length → fv.getD k 0 = f.getD (off + k) 0 ∧
        mv.getD k 0 = m.getD (off + k) 0) ∧
      (∀ i, i < f.length →
        ((fmin ≤ f.getD i 0 ∧ f.getD i 0 ≤ fmax) ↔
          (off ≤ i ∧ i < off + fv.length)))) := by
  refine ⟨?_, ?_, ?_⟩
  · constructor
    · intro h
      simp only [crop_to_window, if_pos h]
    · intro h
      by_contra hnot
      simp only [crop_to_window, if_neg hnot] at h
      by_cases hE : countLt f fmin = countLe f fmax
      · rw [if_pos hE] at h
        simp at h
      · rw [if_neg hE] at h
        simp at h
  · intro hfm
    have hnot : ¬ (fmax ≤ fmin) := not_le.mpr hfm
    constructor
    · intro h i hiF
      simp only [crop_to_window, if_neg hnot] at h
      by_cases hE : countLt f fmin = countLe f fmax
      · intro hx
        have hmem := (window_mem_iff hsort fmin fmax hiF).mp hx
        rw [hE] at hmem
        omega
      · rw [if_neg hE] at h
        simp at h
    · intro hnone
      have hmono : countLt f fmin ≤ countLe f fmax := by
        apply List.countP_mono_left
        intro v _ hv
        simp only [decide_eq_true_eq] at hv ⊢
        exact le_of_lt (lt_of_lt_of_le hv (le_of_lt hfm))
      have hE : countLt f fmin = countLe f fmax := by
        by_contra hE
        have hlt : countLt f fmin < countLe f fmax :=
          lt_of_le_of_ne hmono hE
        have hiF : countLt f fmin < f.length :=
          lt_of_lt_of_le hlt (List.countP_le_length _)
        have hmem := (window_mem_iff hsort fmin fmax hiF).mpr ⟨le_refl _, hlt⟩
        exact hnone _ hiF hmem
      simp only [crop_to_window, if_neg hnot, if_pos hE]
  · intro fv mv off h
    by_cases hvm : fmax ≤ fmin
    · simp [crop_to_window, if_pos hvm] at h
    · by_cases hE : countLt f fmin = countLe f fmax
      · simp [crop_to_window, if_neg hvm, hE] at h
      · simp only [crop_to_window, if_neg hvm, if_neg hE,
          Except.ok.injEq, Prod.mk.injEq] at h
        obtain ⟨h1, h2, h3⟩ := h
        subst h1
        subst h2
        subst h3
        have hfm : fmin < fmax := not_le.mp hvm
        have hmono : countLt f fmin ≤ countLe f fmax := by
          apply List.countP_mono_left
          intro v _ hv
          simp only [decide_eq_true_eq] at hv ⊢
          exact le_of_lt (lt_of_lt_of_le hv (le_of_lt hfm))
        have hlt : countLt f fmin < countLe f fmax :=
          lt_of_le_of_ne hmono hE
        have hf : countLe f fmax ≤ f.length := List.countP_le_length _
        have hm : countLe f fmax ≤ m.length := by omega
        have hflen := slice_length f (countLt f fmin) (countLe f fmax) hf
        have hmlen := slice_length m (countLt f fmin) (countLe f fmax) hm
        refine ⟨by rw [hflen, hmlen], by omega, by omega, ?_, ?_⟩
        · intro k hk
          rw [hflen] at hk
          exact ⟨slice_getD 0 f _ _ k hf hk, slice_getD 0 m _ _ k hm hk⟩
        · intro i hiF
          have hw := window_mem_iff hsort fmin fmax hiF
          constructor
          · intro hx
            have := hw.mp hx
            exact ⟨by omega, by omega⟩
          · intro hx
            exact hw.mpr ⟨by omega, by omega⟩

/-- C2 witness: a degenerate window is rejected with `InvalidParameter`,
via the amended theorem at concrete input. -/
theorem C2_crop_to_window_witness :
    crop_to_window [0, 1, 2] [5, 6, 7] 3 1 = .error .invalidParameter :=
  ((C2_crop_to_window [0, 1, 2] [5, 6, 7] 3 1 (by decide) (by decide)).1).mp
    (by norm_num)

/-- C6: `toggle` is its own inverse: toggling the same index twice
returns any selection set to its original state. -/
theorem C6_toggle_involution (S : Finset ℕ) (i : ℕ) :
    toggle_index (toggle_index S i) i = S := by
  by_cases h : i ∈ S
  · simp [toggle_index, h, Finset.insert_erase]
  · simp [toggle_index, h, Finset.erase_insert]

/-- C3: the default binding map `PICKER_KEYMAP` is missing the required
`toggle_overlays` key, so the `picker_keymap["toggle_overlays"]` lookup
`run_picker` performs while building its help text raises `KeyError`;
the other six required keys are present. The claim (all seven keys
present, no lookup can fail) is right about the intent and the code is
wrong. -/
theorem C3_default_keymap_missing_toggle_overlays :
    "toggle_overlays" ∈ REQUIRED_KEYS ∧
    dict_get PICKER_KEYMAP "toggle_overlays" = none ∧
    helpTextOk PICKER_KEYMAP = false ∧
    (["commit", "cancel", "clear", "help", "delete_nearest",
      "toggle_scale"].all
        (fun k => (dict_get PICKER_KEYMAP k).isSome)) = true := by
  decide

/-- C4: a cancelled UI result makes `pick_freqs_matplotlib` raise
`PickerCancelled` without ever assembling a `Selection`; a committed
result with an empty selection is an ordinary success carrying an empty
`Selection`; the two outcomes are distinguishable. -/
theorem C4_cancelled_distinct_from_empty_success (f : List ℚ)
    (r : PickerResult) (st : List (String × String))
    (mt : Option (List (String × String))) :
    (r.cancelled = true → finish_pick f r st mt = .cancelled) ∧
    (r.cancelled = false →
      finish_pick f r st mt =
        .committed (build_selection f r.selected_idx st mt)) ∧
    (r.cancelled = false → r.selected_idx = [] →
      finish_pick f r st mt = .committed
        { selected_hz := [], selected_idx := [], settings := st,
          meta := mt.getD [] }) ∧
    ∀ sel : Selection,
      (SessionOutcome.cancelled : SessionOutcome) ≠ .committed sel := by
  refine ⟨fun hc => by simp [finish_pick, hc],
          fun hc => by simp [finish_pick, hc],
          fun hc he => by simp [finish_pick, hc, he, build_selection],
          fun sel h => by cases h⟩

/-- C4 witness: a concrete cancelled session and a concrete committed
empty session. -/
theorem C4_witness :
    finish_pick [0, 1] { selected_idx := [], cancelled := true } [] none =
      .cancelled ∧
    finish_pick [0, 1] { selected_idx := [], cancelled := false } [] none =
      .committed { selected_hz := [], selected_idx := [], settings := [],
                   meta := [] } :=
  ⟨(C4_cancelled_distinct_from_empty_success [0, 1]
      { selected_idx := [], cancelled := true } [] none).1 rfl,
   (C4_cancelled_distinct_from_empty_success [0, 1]
      { selected_idx := [], cancelled := false } [] none).2.2.1 rfl rfl⟩

/-- C9: `validate_context` is a no-op success when the context is absent;
any failure is an `OverlayLengthMismatch` naming a present series whose
length differs, with the spectrum's length as expected and the series'
length as actual; success is exactly all present series matching; the
spec's concrete example (length-5 mean against 11 samples) is rejected
naming `mean`, `11`, `5`. -/
theorem C9_validate_context (f : List ℚ) (c : OverlayContext) :
    validate_context f none = .ok () ∧
    (∀ e, validate_context f (some c) = .error e →
      ∃ name v, (name, some v) ∈ c.series ∧ v.length ≠ f.length ∧
        e = .overlayLengthMismatch name f.length v.length) ∧
    (validate_context f (some c) = .ok () ↔
      ∀ p ∈ c.series, ∀ v, p.2 = some v → v.length = f.length) ∧
    validate_context [0, 1, 2, 3, 4, 5, 6, 7, 8, 9, 10]
        (some { mean := some [0, 1, 2, 3, 4] }) =
      .error (.overlayLengthMismatch "mean" 11 5) := by
  refine ⟨rfl, ?_, ?_, rfl⟩
  · intro e he
    simp only [validate_context] at he
    rcases hfind : c.series.find? (fun p =>
        match p.2 with
        | some v => decide (v.length ≠ f.length)
        | none => false) with _ | ⟨name, o⟩
    · rw [hfind] at he
      simp at he
    · have hp := List.find?_some hfind
      have hmem := List.mem_of_find?_eq_some hfind
      rw [hfind] at he
      cases o with
      | none => simp at hp
      | some v =>
        have hne : v.length ≠ f.length := by simpa using hp
        refine ⟨name, v, hmem, hne, ?_⟩
        simp at he
        exact he.symm
  · constructor
    · intro hok p hmem v hv
      by_contra hne
      simp only [validate_context] at hok
      rcases hfind : c.series.find? (fun p =>
          match p.2 with
          | some v => decide (v.length ≠ f.length)
          | none => false) with _ | ⟨name, o⟩
      · have := List.find?_eq_none.mp hfind p hmem
        simp [hv] at this
        exact hne this
      · have hp := List.find?_some hfind
        rw [hfind] at hok
        cases o with
        | none => simp at hp
        | some w => simp at hok
    · intro hall
      have hfind : c.series.find? (fun p =>
          match p.2 with
          | some v => decide (v.length ≠ f.length)
          | none => false) = none := by
        rw [List.find?_eq_none]
        intro p hmem
        cases hp : p.2 with
        | none => simp [hp]
        | some v => simp [hp, hall p hmem v hp]
      simp only [validate_context]
      rw [hfind]

/-- C9 witness: concrete absent context accepted and a concrete
mismatched mean rejected. -/
theorem C9_witness :
    validate_context ([0, 1, 2] : List ℚ) none = .ok () ∧
    validate_context [0, 1, 2] (some { mean := some [0, 1] }) =
      .error (.overlayLengthMismatch "mean" 3 2) :=
  ⟨(C9_validate_context [0, 1, 2] { mean := some [0, 1] }).1, rfl⟩

/-- A strictly increasing list is strictly monotone in its (defaulted)
indexing. -/
theorem sorted_getD_strictMono {f : List ℚ} (hsort : List.Sorted (· < ·) f)
    {a b : ℕ} (hab : a < b) (hb : b < f.length) :
    f.getD a 0 < f.getD b 0 := by
  have ha : a < f.length := lt_trans hab hb
  rw [List.getD_eq_getElem _ _ ha, List.getD_eq_getElem _ _ hb]
  have := List.pairwise_iff_get.mp hsort ⟨a, ha⟩ ⟨b, hb⟩ hab
  simpa using this

/-- C7: `_build_selection` returns the selected indices sorted ascending
by their frequency; with validated (strictly increasing) frequencies the
index list is therefore strictly ascending, `selected_hz` is exactly the
frequencies at those indices in the same order and is itself strictly
ascending, and the output is a permutation of the selected set. -/
theorem C7_build_selection (f : List ℚ) (sel : List ℕ)
    (st : List (String × String)) (mt : Option (List (String × String)))
    (hsort : List.Sorted (· < ·) f) (hnd : sel.Nodup)
    (hin : ∀ i ∈ sel, i < f.length) :
    (build_selection f sel st mt).selected_idx.Perm sel ∧
    List.Sorted (fun a b => f.getD a 0 < f.getD b 0)
      (build_selection f sel st mt).selected_idx ∧
    (build_selection f sel st mt).selected_idx.Sorted (· < ·) ∧
    (build_selection f sel st mt).selected_hz =
      (build_selection f sel st mt).selected_idx.map
        (fun i => f.getD i 0) ∧
    (build_selection f sel st mt).selected_hz.Sorted (· < ·) := by
  have hidx : (build_selection f sel st mt).selected_idx =
      sel.mergeSort (fun a b => f.getD a 0 ≤ f.getD b 0) := by
    simp [build_selection]
  have hhz : (build_selection f sel st mt).selected_hz =
      (sel.mergeSort (fun a b => f.getD a 0 ≤ f.getD b 0)).map
        (fun i => f.getD i 0) := by
    simp [build_selection]
  have hperm : (sel.mergeSort
      (fun a b => f.getD a 0 ≤ f.getD b 0)).Perm sel :=
    List.mergeSort_perm sel _
  have hsorted_le : List.Pairwise
      (fun a b => (f.getD a 0 ≤ f.getD b 0 : Bool) = true)
      (sel.mergeSort (fun a b => f.getD a 0 ≤ f.getD b 0)) := by
    apply List.sorted_mergeSort
    · intro a b c h1 h2
      simp only [decide_eq_true_eq] at h1 h2 ⊢
      exact le_trans h1 h2
    · intro a b
      simp only [Bool.or_eq_true, decide_eq_true_eq]
      exact le_total _ _
  have hnd' : (sel.mergeSort
      (fun a b => f.getD a 0 ≤ f.getD b 0)).Nodup :=
    hperm.nodup_iff.mpr hnd
  have hin' : ∀ i ∈ sel.mergeSort (fun a b => f.getD a 0 ≤ f.getD b 0),
      i < f.length := fun i hi => hin i (hperm.mem_iff.mp hi)
  have hkey_lt : List.Pairwise (fun a b => f.getD a 0 < f.getD b 0)
      (sel.mergeSort (fun a b => f.getD a 0 ≤ f.getD b 0)) := by
    have hcomb := List.Pairwise.and hsorted_le hnd'
    apply hcomb.imp_of_mem
    intro a b ha hb hab
    obtain ⟨hle, hne⟩ := hab
    simp only [decide_eq_true_eq] at hle
    rcases lt_or_gt_of_ne hne with h | h
    · exact sorted_getD_strictMono hsort h (hin' b hb)
    · exact absurd (sorted_getD_strictMono hsort h (hin' a ha))
        (not_lt.mpr hle)
  have hidx_lt : List.Pairwise (· < ·)
      (sel.mergeSort (fun a b => f.getD a 0 ≤ f.getD b 0)) := by
    apply hkey_lt.imp_of_mem
    intro a b ha hb hab
    by_contra hba
    push_neg at hba
    rcases Nat.lt_or_ge b a with h | h
    · exact absurd (sorted_getD_strictMono hsort h (hin' a ha))
        (not_lt.mpr (le_of_lt hab))
    · have hab' : a = b := le_antisymm h hba
      subst hab'
      exact absurd hab (lt_irrefl _)
  refine ⟨by rw [hidx]; exact hperm, by rw [hidx]; exact hkey_lt,
    by rw [hidx]; exact hidx_lt, by rw [hhz, hidx], ?_⟩
  · rw [hhz]
    exact List.pairwise_map.mpr hkey_lt

/-- C7 witness: a concrete unordered selection comes back frequency-
sorted. -/
theorem C7_build_selection_witness :
    (build_selection [0, 1, 2] [2, 0] [] none).selected_idx.Perm [2, 0] ∧
    (build_selection [0, 1, 2] [2, 0] [] none).selected_idx.Sorted
      (· < ·) :=
  ⟨(C7_build_selection [0, 1, 2] [2, 0] [] none (by decide) (by decide)
      (by decide)).1,
   (C7_build_selection [0, 1, 2] [2, 0] [] none (by decide) (by decide)
      (by decide)).2.2.1⟩

/-- C8 counterexample: the round trip fails for a positive value below
the floor `max · 1e-12` — with `max = 1`, the value `1e-13` comes back as
`1e-12`, a factor-of-ten error, so the claim's "for every positive finite
v ≤ max" is false as stated. -/
theorem C8_cex_small_value_clamped :
    db_to_linear (linear_to_db ((10 : ℝ) ^ (-13 : ℤ)) 1) 1 =
      (10 : ℝ) ^ (-12 : ℤ) ∧
    (10 : ℝ) ^ (-12 : ℤ) ≠ (10 : ℝ) ^ (-13 : ℤ) := by
  constructor
  · have h1 : ¬ ((1 : ℝ) ≤ 0) := by norm_num
    have hle : (10 : ℝ) ^ (-13 : ℤ) ≤ (10 : ℝ) ^ (-12 : ℤ) :=
      le_of_lt (zpow_lt_zpow_right₀ (by norm_num) (by norm_num))
    simp only [linear_to_db, db_to_linear, if_neg h1, one_mul, div_one]
    rw [max_eq_right hle]
    rw [← Real.rpow_intCast (10 : ℝ) (-12 : ℤ),
      Real.logb_rpow (by norm_num) (by norm_num)]
    rw [show (20 : ℝ) * ((-12 : ℤ) : ℝ) / 20 = ((-12 : ℤ) : ℝ) by norm_num]
  · exact ne_of_gt (zpow_lt_zpow_right₀ (by norm_num) (by norm_num))

/-- C8 (amended): the display-domain conversion round-trips exactly (in
real arithmetic) for every value between the floor `max · 1e-12` and
`max`, with a positive reference maximum: values below the floor are
clamped and do not round-trip. -/
theorem C8_db_round_trip (v M : ℝ) (hM : 0 < M)
    (hlo : M * (10 : ℝ) ^ (-12 : ℤ) ≤ v) (_hhi : v ≤ M) :
    db_to_linear (linear_to_db v M) M = v := by
  have hMne : ¬ (M ≤ 0) := not_le.mpr hM
  have hfloor : 0 < M * (10 : ℝ) ^ (-12 : ℤ) := by positivity
  have hv : 0 < v := lt_of_lt_of_le hfloor hlo
  simp only [linear_to_db, db_to_linear, if_neg hMne]
  rw [max_eq_left hlo]
  rw [mul_div_cancel_left₀ _ (by norm_num : (20 : ℝ) ≠ 0)]
  rw [Real.rpow_logb (by norm_num) (by norm_num) (div_pos hv hM)]
  rw [mul_comm, div_mul_cancel₀ v (ne_of_gt hM)]

/-- C8 witness: the round trip at `v = max = 1`. -/
theorem C8_round_trip_witness :
    (0 : ℝ) < 1 ∧ (1 : ℝ) * (10 : ℝ) ^ (-12 : ℤ) ≤ 1 ∧ (1 : ℝ) ≤ 1 ∧
    db_to_linear (linear_to_db 1 1) 1 = 1 :=
  ⟨by norm_num, by norm_num, le_refl 1,
   C8_db_round_trip 1 1 (by norm_num) (by norm_num) (le_refl 1)⟩

/-- Every view-local index produced by `_indices_in_view` is inside the
view. -/
theorem indices_in_view_lt (S : Finset ℕ) (off size : ℕ) :
    ∀ x ∈ indices_in_view S off size, x < size := by
  intro x hx
  unfold indices_in_view at hx
  simp only [List.mem_map, List.mem_filter] at hx
  obtain ⟨idx, ⟨_, hcond⟩, rfl⟩ := hx
  simp only [decide_eq_true_eq] at hcond
  exact hcond.2

/-- Toggling can only add the toggled index. -/
theorem toggle_index_subset (S : Finset ℕ) (j : ℕ) :
    toggle_index S j ⊆ insert j S := by
  unfold toggle_index
  split
  · exact subset_trans (Finset.erase_subset _ _) (Finset.subset_insert _ _)
  · exact Finset.Subset.refl _

/-- A defaulted in-bounds lookup is a member. -/
theorem list_getD_mem {α : Type*} (d : α) (l : List α) (k : ℕ)
    (hk : k < l.length) : l.getD k d ∈ l := by
  rw [List.getD_eq_getElem _ _ hk]
  exact List.getElem_mem hk

/-- Any in-bounds lookup into `np.where`-style filtered range indices is
below the range bound. -/
theorem filter_range_getD_lt (n : ℕ) (p : ℕ → Bool) (k : ℕ)
    (hk : k < ((List.range n).filter p).length) :
    ((List.range n).filter p).getD k 0 < n := by
  have hmem := list_getD_mem 0 _ _ hk
  have hfil := List.mem_filter.mp hmem
  exact List.mem_range.mp hfil.1

/-- The argmax over a mapped list indexes the base list. -/
theorem argmaxIdx_map_lt {α : Type*} {β : Type*} [LinearOrder β] (d : β)
    (g : α → β) (l : List α) (hl : l ≠ []) :
    argmaxIdx d (l.map g) < l.length := by
  have h := argmaxIdx_lt_length d (l.map g) (by simpa using hl)
  simpa using h

/-- The argmin over a mapped list indexes the base list. -/
theorem argminIdx_map_lt {α : Type*} {β : Type*} [LinearOrder β] (d : β)
    (g : α → β) (l : List α) (hl : l ≠ []) :
    argminIdx d (l.map g) < l.length := by
  have h := argminIdx_lt_length d (l.map g) (by simpa using hl)
  simpa using h

/-- `on_select` either leaves the selection alone or toggles one
view-local index translated by the view offset. -/
theorem on_select_selectedIdx (P : SessionParams) (s : UIState)
    (ck rk : Option String) (cx cy rx ry : Option ℝ) :
    (on_select P s ck rk cx cy rx ry).selectedIdx = s.selectedIdx ∨
    ∃ v, v < P.fHz.length ∧
      (on_select P s ck rk cx cy rx ry).selectedIdx =
        toggle_index s.selectedIdx (v + P.originalOffset) := by
  rcases cx with _ | cxv <;> rcases cy with _ | cyv <;>
    rcases rx with _ | rxv <;> rcases ry with _ | ryv <;>
    simp only [on_select] <;> split <;> try exact Or.inl rfl
  split
  · exact Or.inl rfl
  · rename_i hmask
    exact Or.inr ⟨_, filter_range_getD_lt _ _ _
      (argmaxIdx_map_lt 0 _ _ hmask), rfl⟩

/-- `on_key_press` either leaves the selection alone, clears it, or
toggles one view-local index translated by the view offset. -/
theorem on_key_press_selectedIdx (P : SessionParams) (key : String)
    (s : UIState) :
    (on_key_press P key s).selectedIdx = s.selectedIdx ∨
    (on_key_press P key s).selectedIdx = ∅ ∨
    ∃ v, v < P.fHz.length ∧
      (on_key_press P key s).selectedIdx =
        toggle_index s.selectedIdx (v + P.originalOffset) := by
  simp only [on_key_press]
  by_cases h1 : key = P.km.commit
  · rw [if_pos h1]; exact Or.inl rfl
  · rw [if_neg h1]
    by_cases h2 : key = P.km.cancel
    · rw [if_pos h2]; exact Or.inl rfl
    · rw [if_neg h2]
      by_cases h3 : key = P.km.clear
      · rw [if_pos h3]; exact Or.inr (Or.inl rfl)
      · rw [if_neg h3]
        by_cases h4 : key = P.km.delete_nearest
        · rw [if_pos h4]
          by_cases hemp : s.selectedIdx = ∅
          · rw [if_pos hemp]; exact Or.inl rfl
          · rw [if_neg hemp]
            rcases hlmx : s.lastMouseX with _ | target
            · exact Or.inl rfl
            · by_cases hvi : indices_in_view s.selectedIdx
                  P.originalOffset P.fHz.length = []
              · simp only [hvi, if_pos]
                simp
              · simp only [if_neg hvi]
                exact Or.inr (Or.inr ⟨_, indices_in_view_lt _ _ _ _
                  (list_getD_mem 0 _ _ (argminIdx_map_lt 0 _ _ hvi)),
                  rfl⟩)
        · rw [if_neg h4]
          by_cases h5 : key = P.km.help
          · rw [if_pos h5]; exact Or.inl rfl
          · rw [if_neg h5]
            by_cases h6 : key = P.km.toggle_scale
            · rw [if_pos h6]; exact Or.inl rfl
            · rw [if_neg h6]
              by_cases h7 : key = P.km.toggle_overlays
              · rw [if_pos h7]
                split <;> exact Or.inl rfl
              · rw [if_neg h7]; exact Or.inl rfl

/-- One controller step keeps the selection inside the active view's
absolute index range. -/
theorem step_preserves_view (P : SessionParams) (s : UIState) (g : Gesture)
    (hs : s.selectedIdx ⊆
      Finset.Ico P.originalOffset (P.originalOffset + P.fHz.length)) :
    (step P s g).selectedIdx ⊆
      Finset.Ico P.originalOffset (P.originalOffset + P.fHz.length) := by
  have htog : ∀ v, v < P.fHz.length →
      toggle_index s.selectedIdx (v + P.originalOffset) ⊆
        Finset.Ico P.originalOffset (P.originalOffset + P.fHz.length) := by
    intro v hv x hx
    rcases Finset.mem_insert.mp (toggle_index_subset _ _ hx) with rfl | hxs
    · exact Finset.mem_Ico.mpr ⟨by omega, by omega⟩
    · exact hs hxs
  cases g with
  | motion ax x =>
    simp only [step]
    split
    · exact hs
    · simp only [on_motion]
      split
      · exact hs
      · exact hs
  | rectSelect ck rk cx cy rx ry =>
    simp only [step]
    split
    · exact hs
    · rcases on_select_selectedIdx P s ck rk cx cy rx ry with h | ⟨v, hv, h⟩
      · rw [h]; exact hs
      · rw [h]; exact htog v hv
  | keyPress k =>
    simp only [step]
    split
    · exact hs
    · rcases on_key_press_selectedIdx P k s with h | h | ⟨v, hv, h⟩
      · rw [h]; exact hs
      · rw [h]; exact Finset.empty_subset _
      · rw [h]; exact htog v hv

/-- The invariant holds for whole sessions started from the initial
(empty) state. -/
theorem run_gestures_subset (P : SessionParams) (gs : List Gesture) :
    (run_gestures P gs).selectedIdx ⊆
      Finset.Ico P.originalOffset (P.originalOffset + P.fHz.length) := by
  suffices h : ∀ s : UIState, s.selectedIdx ⊆
      Finset.Ico P.originalOffset (P.originalOffset + P.fHz.length) →
      (gs.foldl (step P) s).selectedIdx ⊆
        Finset.Ico P.originalOffset (P.originalOffset + P.fHz.length) by
    apply h
    simp [init_state]
  induction gs with
  | nil => intro s hs; exact hs
  | cons g tl ih =>
    intro s hs
    exact ih _ (step_preserves_view P s g hs)

/-- C5: while the session is active, a toggle-scale key press leaves the
selection set (and the terminal flags, pointer memory and overlay flag)
unchanged: only the display domain and the displayed magnitude series
change. -/
theorem C5_toggle_scale_preserves_selection (P : SessionParams)
    (s : UIState) (key : String)
    (hdone : s.done = false) (hcanc : s.cancelled = false)
    (h1 : key ≠ P.km.commit) (h2 : key ≠ P.km.cancel)
    (h3 : key ≠ P.km.clear) (h4 : key ≠ P.km.delete_nearest)
    (h5 : key ≠ P.km.help) (h6 : key = P.km.toggle_scale) :
    (step P s (.keyPress key)).selectedIdx = s.selectedIdx ∧
    (step P s (.keyPress key)).done = s.done ∧
    (step P s (.keyPress key)).cancelled = s.cancelled ∧
    (step P s (.keyPress key)).lastMouseX = s.lastMouseX ∧
    (step P s (.keyPress key)).overlaysVisible = s.overlaysVisible ∧
    (step P s (.keyPress key)).currentDomain =
      (if s.currentDomain = "dB" then "linear" else "dB") ∧
    (step P s (.keyPress key)).currentMag =
      display_mag_for P
        (if s.currentDomain = "dB" then "linear" else "dB") := by
  have hterm : ¬ ((s.done = true) ∨ (s.cancelled = true)) := by
    simp [hdone, hcanc]
  simp only [step, if_neg hterm]
  simp only [on_key_press, if_neg h1, if_neg h2, if_neg h3, if_neg h4,
    if_neg h5, if_pos h6]
  simp [hdone, hcanc]

/-- C5 witness: the toggle-scale key `"l"` on a concrete active state
with selection `{1, 2}` leaves the selection at `{1, 2}`. -/
theorem C5_toggle_scale_witness :
    (step
      { fHz := [], originalMag := [], displayDomain := "dB",
        modifier := "shift",
        km := { commit := "q", cancel := "escape", clear := "c",
                help := "h", delete_nearest := "x", toggle_scale := "l",
                toggle_overlays := "o" },
        originalOffset := 0, overlaysEnabled := false }
      { done := false, cancelled := false, lastMouseX := none,
        selectedIdx := {1, 2}, currentDomain := "dB", currentMag := [],
        overlaysVisible := false }
      (.keyPress "l")).selectedIdx = {1, 2} :=
  (C5_toggle_scale_preserves_selection
    { fHz := [], originalMag := [], displayDomain := "dB",
      modifier := "shift",
      km := { commit := "q", cancel := "escape", clear := "c",
              help := "h", delete_nearest := "x", toggle_scale := "l",
              toggle_overlays := "o" },
      originalOffset := 0, overlaysEnabled := false }
    { done := false, cancelled := false, lastMouseX := none,
      selectedIdx := {1, 2}, currentDomain := "dB", currentMag := [],
      overlaysVisible := false }
    "l" rfl rfl (by decide) (by decide) (by decide) (by decide)
    (by decide) rfl).1

/-- C10: after any sequence of gestures the selection set lies inside
`[offset, offset + view size)`, so when the (possibly cropped) view fits
inside the full spectrum every selected index is a valid absolute index
into the full arrays — which is exactly what `_build_selection`'s
accesses need. -/
theorem C10_selection_within_view (P : SessionParams) (full_len : ℕ)
    (hfit : P.originalOffset + P.fHz.length ≤ full_len)
    (gs : List Gesture) :
    (run_gestures P gs).selectedIdx ⊆
      Finset.Ico P.originalOffset (P.originalOffset + P.fHz.length) ∧
    (run_gestures P gs).selectedIdx ⊆ Finset.range full_len := by
  have h := run_gestures_subset P gs
  refine ⟨h, fun x hx => ?_⟩
  have hm := Finset.mem_Ico.mp (h hx)
  exact Finset.mem_range.mpr (by omega)

/-- C10 witness: a concrete (trivial) session keeps the selection inside
the spectrum bounds. -/
theorem C10_selection_witness :
    (run_gestures
      { fHz := [], originalMag := [], displayDomain := "dB",
        modifier := "shift",
        km := { commit := "q", cancel := "escape", clear := "c",
                help := "h", delete_nearest := "x", toggle_scale := "l",
                toggle_overlays := "o" },
        originalOffset := 0, overlaysEnabled := false }
      []).selectedIdx ⊆ Finset.range 0 :=
  (C10_selection_within_view _ 0 (by simp) []).2

end FreqPick
